import Mathlib

/-!
Verification of the csdsa library core (stack allocator, sequence, hash table)
against its specification.  The definitions below are a shallow embedding of
the C sources in src/src: pointers become byte offsets from the owning region
base, byte buffers become lists, machine integers become Nat or Int with
explicit mod 2^w where the width matters, and operations whose C code can hit
an assert or out-of-bounds access return Option (none models the failure).
-/

/- ----------------------------------------------------------------
   Guard word arithmetic, stalloc.c lines 32-41.
   The guard is stored in a uint32_t (stalloc.c line 124), so MAKE_GUARD
   models the macro result truncated to 32 bits as the store performs;
   BLOCK_SIZE and IS_FREE read that stored 32-bit word back.
   ---------------------------------------------------------------- -/

def ALLOCATED : Nat := 0
def FREE : Nat := 1
def HEADER_SIZE : Nat := 4
def FOOTER_SIZE : Nat := 4

def MAKE_GUARD (size state : Nat) : Nat := ((size <<< 4) ||| state) % 2 ^ 32

def BLOCK_SIZE (guard : Nat) : Nat := guard >>> 4

def IS_FREE (guard : Nat) : Bool := guard &&& 1 == 1

/- ----------------------------------------------------------------
   Regions and the allocator chain, stalloc.c lines 43-63.
   An Alloc is one region: regionSize is the int64 region_size field,
   cursor is the byte offset stack_ptr - region, and blocks records, most
   recent first, the guard words written at the footer positions of the
   blocks currently below the cursor (the word _stpop reads back sits at
   cursor - 4 and is the head of the list whenever every stored guard
   decodes to the true block size, which holds for all block sizes
   below 2^28).
   ---------------------------------------------------------------- -/

structure Alloc where
  regionSize : Nat
  cursor : Nat
  blocks : List Nat
  deriving DecidableEq, Repr

structure Stalloc where
  chain : List Alloc
  frames : List Int
  frameCount : Nat
  frameArrLen : Nat
  deriving DecidableEq, Repr

def STACK_FRAME_GUESS : Nat := 128

/-- stalloc.c lines 204-212: make one region.  The calloc gives a zeroed
buffer; stack_ptr starts at the base and heap_div_ptr at base + region_size,
so the cursor offset starts at 0 and the capacity test compares against
regionSize. -/
def alloc_make (region_size : Nat) : Alloc :=
  { regionSize := region_size, cursor := 0, blocks := [] }

/-- The doubling loop of append_new_alloc (stalloc.c lines 227-229) and of
start_frame (lines 182-185): double cur until it is at least target.  The
loop is bounded by a structural counter so that it stays kernel-computable;
target iterations always suffice when cur is positive (each doubling at
least doubles cur and target does not exceed 2 ^ target), and every call
site passes a positive cur since region sizes are asserted positive and the
frame array length is at least one there. -/
def growSizeGo (fuel cur target : Nat) : Nat :=
  match fuel with
  | 0 => cur
  | f + 1 => if cur < target then growSizeGo f (2 * cur) target else cur

def growSize (cur target : Nat) : Nat := growSizeGo target cur target

/-- stalloc.c lines 214-237: prepend a region.  On an empty chain the new
region has exactly the requested size; otherwise the new size starts at twice
the top region size and doubles until it is at least twice the request. -/
def append_new_alloc (a : Stalloc) (region_size : Nat) : Stalloc :=
  match a.chain with
  | [] => { a with chain := [alloc_make region_size] }
  | last_top :: _ =>
      { a with
        chain := alloc_make (growSize (2 * last_top.regionSize) (2 * region_size)) :: a.chain }

/-- stalloc.c lines 75-86. -/
def stalloc_create (bytes : Nat) : Stalloc :=
  append_new_alloc { chain := [], frames := [], frameCount := 0, frameArrLen := 0 } bytes

/-- The common tail of __stpush (stalloc.c lines 122-144): write the header
and footer guards on the top region, advance its cursor past the block, bump
the counter of the frame record at index frame_count - 1, and return the
payload offset (old cursor + HEADER_SIZE) within the top region.  The frame
update is an unguarded array access in C; the model returns none when the
index is outside the frame array. -/
def pushOnTop (a : Stalloc) (bytes : Nat) : Option (Stalloc × Nat) :=
  match a.chain with
  | [] => none
  | top :: rest =>
      let memory_guard := MAKE_GUARD (bytes + HEADER_SIZE + FOOTER_SIZE) ALLOCATED
      let ret := top.cursor + HEADER_SIZE
      let top1 : Alloc :=
        { top with
          cursor := top.cursor + HEADER_SIZE + bytes + FOOTER_SIZE,
          blocks := memory_guard :: top.blocks }
      if 1 ≤ a.frameCount ∧ a.frameCount ≤ a.frames.length then
        some ({ a with
                chain := top1 :: rest,
                frames := a.frames.set (a.frameCount - 1)
                  (a.frames.getD (a.frameCount - 1) 0 + 1) }, ret)
      else none

/-- stalloc.c lines 100-145: if the block does not fit on the top region
(cursor + bytes + header + footer past the heap divider) a new region is
prepended first, then the block is written on the (possibly new) top. -/
def stpush (a : Stalloc) (bytes : Nat) : Option (Stalloc × Nat) :=
  match a.chain with
  | [] => none
  | top :: _ =>
      if top.cursor + bytes + HEADER_SIZE + FOOTER_SIZE > top.regionSize then
        pushOnTop (append_new_alloc a bytes) bytes
      else pushOnTop a bytes

/-- stalloc.c lines 261-287: if the two topmost regions are both empty they
are replaced by a single fresh empty region whose size is the sum of their
sizes. -/
def attempt_alloc_merge (regions : List Alloc) : List Alloc :=
  match regions with
  | top :: toptop :: rest =>
      if top.cursor = 0 ∧ toptop.cursor = 0 then
        alloc_make (top.regionSize + toptop.regionSize) :: rest
      else top :: toptop :: rest
  | other => other

inductive PopResult where
  | exhausted
  | corrupt
  | popped (regions : List Alloc)
  deriving DecidableEq, Repr

/-- One iteration of the _stpop walk (stalloc.c lines 241-254): skip empty
regions from the top; at the first non-empty region read the guard just below
its cursor, abort if its free bit is set (the assert on line 253), otherwise
retreat the cursor by the decoded block size.  exhausted models the walk
running off the end of the chain, corrupt models the assert firing or the
cursor being out of sync with any written guard. -/
def popFirstNonEmpty : List Alloc → PopResult
  | [] => .exhausted
  | r :: rest =>
      if r.cursor = 0 then
        match popFirstNonEmpty rest with
        | .popped rs => .popped (r :: rs)
        | x => x
      else
        match r.blocks with
        | [] => .corrupt
        | g :: bs =>
            if IS_FREE g then .corrupt
            else .popped ({ r with cursor := r.cursor - BLOCK_SIZE g, blocks := bs } :: rest)

/-- stalloc.c lines 239-259: pop up to toPop blocks, merging after each pop
and restarting the walk from the top of the chain; the loop exits silently
when every region is empty before toPop blocks were popped. -/
def stpopN (regions : List Alloc) : Nat → Option (List Alloc)
  | 0 => some regions
  | k + 1 =>
      match popFirstNonEmpty regions with
      | .exhausted => some regions
      | .corrupt => none
      | .popped rs => stpopN (attempt_alloc_merge rs) k

/-- stalloc.c lines 149-152: pop one block, then decrement the counter of the
frame record at index frame_count - 1 (again an unguarded access). -/
def stpop (a : Stalloc) : Option Stalloc :=
  match stpopN a.chain 1 with
  | none => none
  | some rs =>
      if 1 ≤ a.frameCount ∧ a.frameCount ≤ a.frames.length then
        some { a with
               chain := rs,
               frames := a.frames.set (a.frameCount - 1)
                 (a.frames.getD (a.frameCount - 1) 0 - 1) }
      else none

/-- stalloc.c lines 173-192.  On the first call the frames array is
allocated (calloc zeroes it) and frame_count is incremented once in the
initialisation branch and once more unconditionally.  The growth step uses
recalloc (utilities.c lines 28-32), which reallocates and then zeroes the
whole new buffer, so a resize discards every existing frame counter; the
model mirrors that with List.replicate. -/
def start_frame (a : Stalloc) : Stalloc :=
  let a1 :=
    if a.frameArrLen = 0 then
      { a with
        frameCount := a.frameCount + 1,
        frameArrLen := 1,
        frames := List.replicate STACK_FRAME_GUESS 0 }
    else a
  let a2 := { a1 with frameCount := a1.frameCount + 1 }
  let new_len := growSize a2.frameArrLen a2.frameCount
  if new_len = a2.frameArrLen then a2
  else { a2 with frameArrLen := new_len, frames := List.replicate new_len 0 }

/-- stalloc.c lines 194-199: assert at least one open frame, pop as many
blocks as the counter of the record at frame_count - 1 says, drop the
record. -/
def end_frame (a : Stalloc) : Option Stalloc :=
  if 1 ≤ a.frameCount ∧ a.frameCount ≤ a.frames.length then
    match stpopN a.chain (a.frames.getD (a.frameCount - 1) 0).toNat with
    | none => none
    | some rs => some { a with chain := rs, frameCount := a.frameCount - 1 }
  else none

/-- Allocator states reachable through the public interface. -/
inductive Reachable : Stalloc → Prop where
  | create (bytes : Nat) : Reachable (stalloc_create bytes)
  | frame_open {a : Stalloc} : Reachable a → Reachable (start_frame a)
  | frame_close {a a' : Stalloc} : Reachable a → end_frame a = some a' → Reachable a'
  | push {a a' : Stalloc} {n off : Nat} :
      Reachable a → stpush a n = some (a', off) → Reachable a'
  | pop {a a' : Stalloc} : Reachable a → stpop a = some a' → Reachable a'

/- ----------------------------------------------------------------
   Sequence (vector.c).  The byte buffer of a vec is modelled as the list
   of its live elements, each element being its list of bytes; el_size and
   the placement flag are carried as in struct vec (csdsa.h lines 197-204).
   Capacity bookkeeping (doubling growth) only changes where the bytes
   live, never the live contents, so it is not represented.
   ---------------------------------------------------------------- -/

def TO_STACK : Int := 0
def TO_HEAP : Int := 1

structure Vec where
  elSize : Nat
  flags : Int
  data : List (List Nat)
  deriving DecidableEq, Repr

/-- vector.c lines 9-17 with the capacity argument of the header signature:
fresh empty storage with the given element size, allocator placement flag
recorded. -/
def vec_init (el_size : Nat) (flags : Int) : Vec :=
  { elSize := el_size, flags := flags, data := [] }

/-- vector.c lines 19-23: vec_free releases the backing storage with hfree
exactly when the placement flag is TO_HEAP; for a stack placement it is a
no-op.  The model exposes the release decision. -/
def vec_free_releases (v : Vec) : Bool := v.flags == TO_HEAP

/-- vector.c lines 144-157: build a fresh sequence with placement TO_STACK,
push every element satisfying the predicate in order, release the old
storage, and overwrite the original with the local one. -/
def vec_filter (v : Vec) (p : List Nat → Bool) : Vec :=
  { elSize := v.elSize, flags := TO_STACK, data := v.data.filter p }

/- ----------------------------------------------------------------
   Hash table (map.c).  A slot is the K+V+4 byte record [key][value][state]
   (map.c lines 95-103, 124-127); the backing vec of slots is modelled as a
   list of slots whose length is the table size (map.c keeps
   elements.length equal to __size at all times via vec_resize).  memcmp
   over key_size bytes becomes list equality, sound because every stored
   key list has length key_size.
   ---------------------------------------------------------------- -/

structure Slot where
  key : List Nat
  val : List Nat
  state : Int
  deriving DecidableEq, Repr

structure HMap where
  size : Nat
  elSize : Nat
  keySize : Nat
  slotsInUse : Int
  flags : Int
  inUseId : Int
  cacheCounter : Int
  slots : List Slot
  deriving DecidableEq, Repr

/-- utilities.c lines 3-14: djb2 over the key bytes in a uint64
accumulator. -/
def hash_bytes (bytes : List Nat) : Nat :=
  bytes.foldl (fun h b => (h * 33 + b) % 2 ^ 64) 5381

/-- A slot counts as occupied exactly when its state tag equals the current
generation (map.c lines 27, 37, 52, 58, ...). -/
def occb (gen : Int) (s : Slot) : Bool := s.state == gen

/-- The probe order of the two loops of key_pos and linear_search_open_pos:
indices from the start bucket to the end of the table, then from zero up to
the start bucket. -/
def probeSeq (start len : Nat) : List Nat :=
  List.range' start (len - start) ++ List.range start

/-- map.c lines 21-45: first probed index holding an occupied slot whose key
bytes equal the probe key, none when the full scan fails. -/
def key_pos (m : HMap) (key : List Nat) : Option Nat :=
  let len := m.slots.length
  let start_idx := hash_bytes key % len
  (probeSeq start_idx len).find? fun i =>
    match m.slots.get? i with
    | some s => occb m.inUseId s && s.key == key
    | none => false

/-- map.c lines 47-64: first probed index holding a non-occupied slot; the
C function asserts false when the table is full, modelled by none. -/
def linear_search_open_pos (m : HMap) (from_idx : Nat) : Option Nat :=
  (probeSeq from_idx m.slots.length).find? fun i =>
    match m.slots.get? i with
    | some s => !occb m.inUseId s
    | none => false

/-- map.c lines 179-193: probe for the key; on a hit re-check the state tag
and return the slot record, otherwise a zeroed kvpair whose null key means
miss (modelled by none). -/
def map_get (m : HMap) (key : List Nat) : Option Slot :=
  match key_pos m key with
  | none => none
  | some idx =>
      match m.slots.get? idx with
      | none => none
      | some s => if occb m.inUseId s then some s else none

/-- map.c lines 216-221. -/
def map_has (m : HMap) (key : List Nat) : Bool := (map_get m key).isSome

/-- map.c lines 223-243: locate the slot of the key; when present overwrite
its state tag with 0 (explicit tombstone) and decrement slots_in_use. -/
def map_del (m : HMap) (key : List Nat) : HMap :=
  match key_pos m key with
  | none => m
  | some idx =>
      match m.slots.get? idx with
      | none => m
      | some s =>
          if occb m.inUseId s then
            { m with
              slots := m.slots.set idx { s with state := 0 },
              slotsInUse := m.slotsInUse - 1 }
          else m

def zeroSlot (keySize elSize : Nat) : Slot :=
  { key := List.replicate keySize 0, val := List.replicate elSize 0, state := 0 }

/-- map.c lines 109-131: fresh table of initial_size slots, zeroed backing
storage (the vec buffer comes from calloc or from the zero-filling stack
push), generation 1, cache counter 0. -/
def map_init (el_size key_size : Nat) (flags : Int) (initial_size : Nat) : HMap :=
  { size := initial_size,
    elSize := el_size,
    keySize := key_size,
    slotsInUse := 0,
    flags := flags,
    inUseId := 1,
    cacheCounter := 0,
    slots := List.replicate initial_size (zeroSlot key_size el_size) }

/-- map.c lines 136-142: bump the generation, reset the load, and clear the
backing vec; vec_clear (vector.c lines 52-57) zero-fills the whole buffer,
so every slot byte becomes zero. -/
def map_clear (m : HMap) : HMap :=
  { m with
    inUseId := m.inUseId + 1,
    slotsInUse := 0,
    slots := List.replicate m.size (zeroSlot m.keySize m.elSize) }

/-- The reinsertion loop shared by maintain_load_factor (map.c lines 82-88)
and map_filter (map.c lines 284-291): walk the old slots in index order and
put every slot passing the condition into the accumulator table. -/
def putAll (put : HMap → List Nat → List Nat → Option HMap) (c : Slot → Bool) :
    List Slot → HMap → Option HMap
  | [], acc => some acc
  | s :: rest, acc =>
      if c s then
        match put acc s.key s.val with
        | none => none
        | some acc1 => putAll put c rest acc1
      else putAll put c rest acc

/-- map.c lines 195-215 after the load-factor step: delete the key when
present, probe for an open slot from the hash bucket, write key bytes,
value bytes, and the current generation into it, and count the slot.  The
load-factor step itself is the mlf argument, so that the mutual recursion
between map_put and maintain_load_factor is indexed by an explicit nesting
depth below. -/
def putWith (mlf : HMap → Option HMap) (m : HMap) (key value : List Nat) :
    Option HMap :=
  match mlf m with
  | none => none
  | some m1 =>
      let m2 := if map_has m1 key then map_del m1 key else m1
      let idx0 := hash_bytes key % m2.slots.length
      match linear_search_open_pos m2 idx0 with
      | none => none
      | some idx =>
          some { m2 with
                 slots := m2.slots.set idx
                   { key := key, val := value, state := m2.inUseId },
                 slotsInUse := m2.slotsInUse + 1 }

/-- map.c lines 66-93.  The trigger compares slots_in_use / __size against
MAP_LOAD_FACTOR = 0.75 in float arithmetic; the model uses the exact
rational comparison 4 * slots_in_use < 3 * size.  On trigger: a table of
double the size is created and cleared (so its generation is 1 + 1 = 2),
every occupied slot of the old table is re-put into it, and the saved cache
counter plus one is written back; the old generation is not carried over.
The fuel argument bounds the rehash nesting depth (the C recursion through
map_put); fuel is only consumed on trigger. -/
def maintain_load_factor : Nat → HMap → Option HMap
  | fuel, m =>
      if 4 * m.slotsInUse < 3 * (m.size : Int) then some m
      else
        match fuel with
        | 0 => none
        | f + 1 =>
            let new_map := map_clear (map_init m.elSize m.keySize m.flags (m.size * 2))
            match putAll (putWith (maintain_load_factor f)) (occb m.inUseId)
                m.slots new_map with
            | none => none
            | some nm => some { nm with cacheCounter := m.cacheCounter + 1 }

/-- map.c lines 195-215: maintain the load factor, then insert. -/
def map_put (fuel : Nat) (m : HMap) (key value : List Nat) : Option HMap :=
  putWith (maintain_load_factor fuel) m key value

/-- map.c lines 278-295: rebuild through a fresh table created with
placement TO_STACK and the same size, keeping every occupied slot that
passes the predicate, then overwrite the original table record with the
local one (no free of the old storage happens in the C code). -/
def map_filter (fuel : Nat) (m : HMap) (p : List Nat → List Nat → Bool) :
    Option HMap :=
  putAll (map_put fuel) (fun s => occb m.inUseId s && p s.key s.val) m.slots
    (map_init m.elSize m.keySize TO_STACK m.size)

/-- map.c lines 132-135: map_free frees the backing vec, whose placement
flag was copied from the table at init, so storage is released exactly when
the table flag is TO_HEAP. -/
def map_free_releases (m : HMap) : Bool := m.flags == TO_HEAP

/- ----------------------------------------------------------------
   Representation invariants.
   ---------------------------------------------------------------- -/

/-- Number of occupied slots of the table. -/
def occCount (m : HMap) : Nat := m.slots.countP (occb m.inUseId)

/-- Representation invariant of an initialised table, established by
map_init and preserved by every table operation: the backing vec holds
exactly size slots, the size is positive, every stored key occupies
key_size bytes (what memcmp compares), slots_in_use counts the occupied
slots, occupied slots have pairwise distinct keys, and the generation is
positive (a zero state tag is never the live generation). -/
def MapWF (m : HMap) : Prop :=
  m.slots.length = m.size ∧
  0 < m.size ∧
  (∀ s ∈ m.slots, s.key.length = m.keySize) ∧
  m.slotsInUse = (occCount m : Int) ∧
  List.Pairwise
    (fun s t => occb m.inUseId s = true → occb m.inUseId t = true → s.key ≠ t.key)
    m.slots ∧
  0 < m.inUseId

/-- Structural invariant of a created allocator: the region chain is never
empty and the open-frame count never exceeds the frame array length. -/
def StallocInv (a : Stalloc) : Prop :=
  a.chain ≠ [] ∧ a.frames.length = a.frameArrLen ∧ a.frameCount ≤ a.frameArrLen

/- ----------------------------------------------------------------
   Guard word lemmas (claim C8).
   ---------------------------------------------------------------- -/

theorem two_mul_lor_one (m : Nat) : (2 * m) ||| 1 = 2 * m + 1 := by
  have h1 : (2 * m : Nat) = Nat.bit false m := by simp [Nat.bit]
  have h2 : (1 : Nat) = Nat.bit true 0 := by simp [Nat.bit]
  rw [h1, h2, Nat.lor_bit]
  simp [Nat.bit]

theorem MAKE_GUARD_eq (n s : Nat) (hs : s = 0 ∨ s = 1) (hn : n < 2 ^ 28) :
    MAKE_GUARD n s = 16 * n + s := by
  have hsh : n <<< 4 = 16 * n := by
    rw [Nat.shiftLeft_eq]; ring
  have hlt : 16 * n + s < 2 ^ 32 := by
    rcases hs with h | h <;> subst h <;> omega
  rcases hs with h | h <;> subst h
  · simp only [MAKE_GUARD, Nat.or_zero, hsh]
    omega
  · have : n <<< 4 ||| 1 = 16 * n + 1 := by
      rw [hsh]
      have h2 : 16 * n = 2 * (8 * n) := by ring
      rw [h2, two_mul_lor_one]
    simp only [MAKE_GUARD, this]
    omega

/-- Claim C8 (amended): for sizes below 2^28 the guard word round-trips:
BLOCK_SIZE recovers the encoded size and IS_FREE recovers the state bit;
at 2^28 and beyond the size field overflows the 32-bit guard store. -/
theorem guard_round_trip (n s : Nat) (hpos : 0 < n) (hn : n < 2 ^ 28)
    (hs : s = 0 ∨ s = 1) :
    BLOCK_SIZE (MAKE_GUARD n s) = n ∧ (IS_FREE (MAKE_GUARD n s) = true ↔ s = 1) := by
  rw [MAKE_GUARD_eq n s hs hn]
  constructor
  · show (16 * n + s) >>> 4 = n
    rw [Nat.shiftRight_eq_div_pow]
    rcases hs with h | h <;> subst h <;> omega
  · show ((16 * n + s) &&& 1 == 1) = true ↔ s = 1
    rw [Nat.and_one_is_mod]
    rcases hs with h | h <;> subst h
    · have h0 : 16 * n % 2 = 0 := by omega
      simp [h0]
    · have h1 : (16 * n + 1) % 2 = 1 := by omega
      simp [h1]

theorem guard_round_trip_witness :
    BLOCK_SIZE (MAKE_GUARD 16 1) = 16 ∧ (IS_FREE (MAKE_GUARD 16 1) = true ↔ 1 = 1) :=
  guard_round_trip 16 1 (by decide) (by decide) (Or.inr rfl)

/-- Claim C8 as stated fails at n = 2^28: the shifted size wraps past the
32-bit guard word and decodes to 0. -/
theorem guard_round_trip_cex :
    ¬ (BLOCK_SIZE (MAKE_GUARD (2 ^ 28) 1) = 2 ^ 28 ∧
        (IS_FREE (MAKE_GUARD (2 ^ 28) 1) = true ↔ (1 : Nat) = 1)) := by
  decide

/- ----------------------------------------------------------------
   Doubling loop lemmas (claims C6 and C7).
   ---------------------------------------------------------------- -/

theorem growSizeGo_spec (fuel : Nat) :
    ∀ cur target : Nat, target ≤ cur * 2 ^ fuel →
      (∃ j, growSizeGo fuel cur target = cur * 2 ^ j) ∧
      cur ≤ growSizeGo fuel cur target ∧
      (cur < target →
        target ≤ growSizeGo fuel cur target ∧
        growSizeGo fuel cur target < 2 * target) ∧
      (target ≤ cur → growSizeGo fuel cur target = cur) := by
  induction fuel with
  | zero =>
      intro cur target h
      rw [pow_zero, mul_one] at h
      exact ⟨⟨0, by simp [growSizeGo]⟩, le_rfl,
        fun hlt => absurd hlt (by omega), fun _ => rfl⟩
  | succ f ih =>
      intro cur target h
      by_cases hlt : cur < target
      · have hfuel : target ≤ 2 * cur * 2 ^ f := by
          have hpow : cur * 2 ^ (f + 1) = 2 * cur * 2 ^ f := by ring
          omega
        obtain ⟨⟨j, hj⟩, hmono, hrange, hstop⟩ := ih (2 * cur) target hfuel
        have hg : growSizeGo (f + 1) cur target = growSizeGo f (2 * cur) target := by
          simp [growSizeGo, if_pos hlt]
        rw [hg]
        refine ⟨⟨j + 1, by rw [hj]; ring⟩, by omega, fun _ => ?_, fun hge => by omega⟩
        by_cases h2 : 2 * cur < target
        · exact hrange h2
        · have := hstop (by omega)
          omega
      · have hg : growSizeGo (f + 1) cur target = cur := by
          simp [growSizeGo, if_neg hlt]
        exact ⟨⟨0, by rw [hg]; ring⟩, by rw [hg], fun hc => absurd hc hlt,
          fun _ => hg⟩

theorem growSize_spec (cur target : Nat) (hcur : 0 < cur) :
    (∃ j, growSize cur target = cur * 2 ^ j) ∧
    cur ≤ growSize cur target ∧
    (cur < target →
      target ≤ growSize cur target ∧ growSize cur target < 2 * target) ∧
    (target ≤ cur → growSize cur target = cur) := by
  have h : target ≤ cur * 2 ^ target := by
    have h1 : target < 2 ^ target := Nat.lt_two_pow target
    have h2 : 2 ^ target ≤ cur * 2 ^ target := Nat.le_mul_of_pos_left _ hcur
    omega
  exact growSizeGo_spec target cur target h

/-- Claim C6 (amended).  First part: the region prepended on overflow has
size equal to twice the old top size doubled until it reaches twice the
request; that size is always at least max(2 T, 2 n), equals the claimed
max(2 T, 2 n) whenever the request does not exceed the old top size, and
stays below 4 n otherwise.  Second part: a single push on an empty freshly
created first region of size R fits without prepending exactly when
n + 8 ≤ R (the header and footer count against capacity), and prepends a
second region otherwise. -/
theorem append_grow_and_fit :
    (∀ (a : Stalloc) (top : Alloc) (rest : List Alloc) (n : Nat),
      a.chain = top :: rest → 0 < top.regionSize →
      (append_new_alloc a n).chain =
        alloc_make (growSize (2 * top.regionSize) (2 * n)) :: a.chain ∧
      (∃ j, growSize (2 * top.regionSize) (2 * n) = 2 * top.regionSize * 2 ^ j) ∧
      max (2 * top.regionSize) (2 * n) ≤ growSize (2 * top.regionSize) (2 * n) ∧
      (n ≤ top.regionSize →
        growSize (2 * top.regionSize) (2 * n) = 2 * top.regionSize) ∧
      (top.regionSize < n → growSize (2 * top.regionSize) (2 * n) < 4 * n)) ∧
    (∀ R n : Nat, n + HEADER_SIZE + FOOTER_SIZE ≤ R →
      (stpush (start_frame (stalloc_create R)) n).map (fun r => r.1.chain.length) =
        some 1) ∧
    (∀ R n : Nat, R < n + HEADER_SIZE + FOOTER_SIZE →
      (stpush (start_frame (stalloc_create R)) n).map (fun r => r.1.chain.length) =
        some 2) := by
  refine ⟨?_, ?_, ?_⟩
  · intro a top rest n hchain htop
    obtain ⟨⟨j, hj⟩, hmono, hrange, hstop⟩ :=
      growSize_spec (2 * top.regionSize) (2 * n) (by omega)
    refine ⟨?_, ⟨j, hj⟩, ?_, fun hle => hstop (by omega), fun hgt => ?_⟩
    · simp [append_new_alloc, hchain]
    · rcases Nat.lt_or_ge (2 * top.regionSize) (2 * n) with h | h
      · have := (hrange h).1
        omega
      · omega
    · have := (hrange (by omega)).2
      omega
  · intro R n h
    have hstate : start_frame (stalloc_create R) =
        { chain := [alloc_make R], frames := [0, 0], frameCount := 2,
          frameArrLen := 2 } := rfl
    rw [hstate]
    simp only [stpush, alloc_make]
    rw [if_neg (by simp [HEADER_SIZE, FOOTER_SIZE] at h ⊢; omega)]
    simp [pushOnTop]
  · intro R n h
    have hstate : start_frame (stalloc_create R) =
        { chain := [alloc_make R], frames := [0, 0], frameCount := 2,
          frameArrLen := 2 } := rfl
    rw [hstate]
    simp only [stpush, alloc_make]
    rw [if_pos (by simp [HEADER_SIZE, FOOTER_SIZE] at h ⊢; omega)]
    simp [pushOnTop, append_new_alloc, alloc_make]

theorem append_grow_and_fit_witness :
    ((append_new_alloc (start_frame (stalloc_create 8192)) 20000).chain =
        alloc_make (growSize (2 * 8192) (2 * 20000)) ::
          (start_frame (stalloc_create 8192)).chain) ∧
    ((stpush (start_frame (stalloc_create 8192)) 100).map
        (fun r => r.1.chain.length) = some 1) ∧
    ((stpush (start_frame (stalloc_create 8192)) 8190).map
        (fun r => r.1.chain.length) = some 2) :=
  ⟨(append_grow_and_fit.1 (start_frame (stalloc_create 8192)) (alloc_make 8192)
      [] 20000 rfl (by decide)).1,
   append_grow_and_fit.2.1 8192 100 (by decide),
   append_grow_and_fit.2.2 8192 8190 (by decide)⟩

/-- Claim C6 as stated fails: a push of 8192 bytes on a fresh allocator of
initial size 8192 (so n equals the initial size and the first region is
empty) prepends a second region, and a push of 20000 bytes prepends a
region of 65536 bytes where max(2 * 8192, 2 * 20000) would be 40000. -/
theorem append_grow_and_fit_cex :
    (stpush (start_frame (stalloc_create 8192)) 8192).map
        (fun r => r.1.chain.length) = some 2 ∧
    (stpush (start_frame (stalloc_create 8192)) 20000).map
        (fun r => r.1.chain.map Alloc.regionSize) = some [65536, 8192] ∧
    (65536 : Nat) ≠ max (2 * 8192) (2 * 20000) := by
  decide

/- ----------------------------------------------------------------
   Frame opening (claim C7).
   ---------------------------------------------------------------- -/

/-- Claim C7 (amended): start_frame grows the open-frame count by exactly
one on every call except the first call after creation, which grows it by
two (the initialisation branch adds an extra base record); whenever the
frame array is freshly allocated every counter in it is zero. -/
theorem start_frame_count (a : Stalloc) :
    (start_frame a).frameCount =
      a.frameCount + (if a.frameArrLen = 0 then 2 else 1) ∧
    (a.frameArrLen ≠ 0 ∨ (start_frame a).frames.all (· == 0) = true) := by
  by_cases h0 : a.frameArrLen = 0
  · refine ⟨?_, Or.inr ?_⟩
    · rw [if_pos h0]
      simp only [start_frame, if_pos h0]
      split <;> rfl
    · simp only [start_frame, if_pos h0]
      have hgrow : 2 ≤ growSize 1 (a.frameCount + 1 + 1) := by
        obtain ⟨_, _, hrange, _⟩ := growSize_spec 1 (a.frameCount + 1 + 1) (by omega)
        have h2 := (hrange (by omega)).1
        omega
      split
      · next heq => omega
      · simp [List.all_eq_true, List.mem_replicate]
  · refine ⟨?_, Or.inl h0⟩
    rw [if_neg h0]
    simp only [start_frame, if_neg h0]
    split <;> rfl

/-- Claim C7 as stated fails on the first call: one start_frame on a fresh
allocator leaves the open-frame count at 2, not 1. -/
theorem start_frame_count_cex :
    (start_frame (stalloc_create 8192)).frameCount ≠
      (stalloc_create 8192).frameCount + 1 := by
  decide

/- ----------------------------------------------------------------
   Payload alignment (claim C2).
   ---------------------------------------------------------------- -/

/-- Claim C2 fails on the code: the commented-out alignment logic in
__stpush (stalloc.c lines 105-114) is a TODO, so the first push on a fresh
region returns the offset HEADER_SIZE = 4 from the region base.  calloc
returns a base aligned to at least 8, hence the returned payload address is
congruent to 4 modulo 8 and is not 8-byte aligned. -/
theorem push_payload_misaligned :
    (stpush (start_frame (stalloc_create 8192)) 8).map Prod.snd = some 4 ∧
    ¬ (4 % 8 = 0) := by
  decide

/- ----------------------------------------------------------------
   Frame close and stack cursors (claim C1).
   ---------------------------------------------------------------- -/

/-- Claim C1 fails on the code: open a frame, push one byte (the frame
counter becomes 1), open and close a nested frame, close the outer frame.
Opening the nested frame resizes the frame array with recalloc, which
zeroes the whole array and erases the outer counter, so the outer close
pops nothing and the top region cursor stays at 9 instead of returning to
its pre-open value 0. -/
theorem frame_close_keeps_cursor :
    (stalloc_create 8192).chain.map Alloc.cursor = [0] ∧
    ((stpush (start_frame (stalloc_create 8192)) 1).bind (fun r =>
        (end_frame (start_frame r.1)).bind end_frame)).map
      (fun s => s.chain.map Alloc.cursor) = some [9] ∧
    ([9] : List Nat) ≠ [0] := by
  decide

/- ----------------------------------------------------------------
   Reachability invariant (claim C9).
   ---------------------------------------------------------------- -/

theorem popFirstNonEmpty_popped_ne_nil {regions rs : List Alloc}
    (h : popFirstNonEmpty regions = .popped rs) : rs ≠ [] := by
  induction regions generalizing rs with
  | nil => simp [popFirstNonEmpty] at h
  | cons r rest ih =>
      simp only [popFirstNonEmpty] at h
      by_cases hc : r.cursor = 0
      · rw [if_pos hc] at h
        cases hrec : popFirstNonEmpty rest with
        | popped rs2 => simp only [hrec] at h; cases h; simp
        | exhausted => simp only [hrec] at h; cases h
        | corrupt => simp only [hrec] at h; cases h
      · rw [if_neg hc] at h
        cases hb : r.blocks with
        | nil => simp only [hb] at h; cases h
        | cons g bs =>
            simp only [hb] at h
            by_cases hf : IS_FREE g
            · simp only [if_pos hf] at h; cases h
            · simp only [if_neg hf] at h; cases h; simp

theorem attempt_alloc_merge_ne_nil {regions : List Alloc} (h : regions ≠ []) :
    attempt_alloc_merge regions ≠ [] := by
  match regions with
  | [] => exact absurd rfl h
  | [r] => simp [attempt_alloc_merge]
  | r1 :: r2 :: rest =>
      simp only [attempt_alloc_merge]
      split <;> simp

theorem stpopN_ne_nil {k : Nat} :
    ∀ {regions rs : List Alloc}, regions ≠ [] → stpopN regions k = some rs →
      rs ≠ [] := by
  induction k with
  | zero =>
      intro regions rs hne h
      simp only [stpopN] at h
      cases h; exact hne
  | succ k ih =>
      intro regions rs hne h
      simp only [stpopN] at h
      cases hp : popFirstNonEmpty regions with
      | exhausted => rw [hp] at h; cases h; exact hne
      | corrupt => rw [hp] at h; cases h
      | popped rs2 =>
          rw [hp] at h
          exact ih (attempt_alloc_merge_ne_nil (popFirstNonEmpty_popped_ne_nil hp)) h

theorem pushOnTop_shape {a a1 : Stalloc} {n off : Nat}
    (h : pushOnTop a n = some (a1, off)) :
    a1.frames.length = a.frames.length ∧ a1.frameCount = a.frameCount ∧
      a1.frameArrLen = a.frameArrLen ∧ a1.chain ≠ [] := by
  cases hc : a.chain with
  | nil => simp [pushOnTop, hc] at h
  | cons top rest =>
      simp only [pushOnTop, hc] at h
      split at h
      · cases h; simp
      · cases h

theorem append_new_alloc_shape (a : Stalloc) (n : Nat) :
    (append_new_alloc a n).frames = a.frames ∧
      (append_new_alloc a n).frameCount = a.frameCount ∧
      (append_new_alloc a n).frameArrLen = a.frameArrLen ∧
      (append_new_alloc a n).chain ≠ [] := by
  cases hc : a.chain <;> simp [append_new_alloc, hc]

theorem stpush_shape {a a1 : Stalloc} {n off : Nat}
    (h : stpush a n = some (a1, off)) :
    a1.frames.length = a.frames.length ∧ a1.frameCount = a.frameCount ∧
      a1.frameArrLen = a.frameArrLen ∧ a1.chain ≠ [] := by
  cases hc : a.chain with
  | nil => simp [stpush, hc] at h
  | cons top rest =>
      simp only [stpush, hc] at h
      split at h
      · obtain ⟨h1, h2, h3, h4⟩ := pushOnTop_shape h
        obtain ⟨g1, g2, g3, _⟩ := append_new_alloc_shape a n
        exact ⟨by rw [h1, g1], by rw [h2, g2], by rw [h3, g3], h4⟩
      · exact pushOnTop_shape h

theorem stpop_shape {a a1 : Stalloc} (h : stpop a = some a1) :
    a1.frames.length = a.frames.length ∧ a1.frameCount = a.frameCount ∧
      a1.frameArrLen = a.frameArrLen ∧ (a.chain ≠ [] → a1.chain ≠ []) := by
  simp only [stpop] at h
  cases hp : stpopN a.chain 1 with
  | none => simp only [hp] at h; cases h
  | some rs =>
      simp only [hp] at h
      split at h
      · cases h
        exact ⟨by simp, rfl, rfl, fun hne => stpopN_ne_nil hne hp⟩
      · cases h

theorem end_frame_shape {a a1 : Stalloc} (h : end_frame a = some a1) :
    a1.frames = a.frames ∧ a1.frameCount = a.frameCount - 1 ∧
      a1.frameArrLen = a.frameArrLen ∧ (a.chain ≠ [] → a1.chain ≠ []) := by
  simp only [end_frame] at h
  split at h
  · cases hp : stpopN a.chain (a.frames.getD (a.frameCount - 1) 0).toNat with
    | none => simp only [hp] at h; cases h
    | some rs =>
        simp only [hp] at h
        cases h
        exact ⟨rfl, rfl, rfl, fun hne => stpopN_ne_nil hne hp⟩
  · cases h

theorem start_frame_inv {a : Stalloc} (hInv : StallocInv a) :
    StallocInv (start_frame a) := by
  obtain ⟨hchain, hlen, hcount⟩ := hInv
  by_cases h0 : a.frameArrLen = 0
  · have hgrow : a.frameCount + 1 + 1 ≤ growSize 1 (a.frameCount + 1 + 1) := by
      obtain ⟨_, _, hrange, _⟩ := growSize_spec 1 (a.frameCount + 1 + 1) (by omega)
      exact (hrange (by omega)).1
    simp only [start_frame, if_pos h0]
    split
    · next heq => exact absurd heq (by omega)
    · exact ⟨hchain, by simp, hgrow⟩
  · have hpos : 0 < a.frameArrLen := by omega
    obtain ⟨_, hmono, hrange, _⟩ := growSize_spec a.frameArrLen (a.frameCount + 1) hpos
    simp only [start_frame, if_neg h0]
    split
    · next heq =>
        refine ⟨hchain, hlen, ?_⟩
        show a.frameCount + 1 ≤ a.frameArrLen
        by_cases hlt : a.frameArrLen < a.frameCount + 1
        · have := (hrange hlt).1
          omega
        · omega
    · refine ⟨hchain, by simp, ?_⟩
      show a.frameCount + 1 ≤ growSize a.frameArrLen (a.frameCount + 1)
      by_cases hlt : a.frameArrLen < a.frameCount + 1
      · have := (hrange hlt).1
        omega
      · omega

theorem reachable_inv {a : Stalloc} (h : Reachable a) : StallocInv a := by
  induction h with
  | create bytes =>
      exact ⟨by simp [stalloc_create, append_new_alloc], rfl, le_rfl⟩
  | frame_open _ ih => exact start_frame_inv ih
  | frame_close _ hstep ih =>
      obtain ⟨hchain, hlen, hcount⟩ := ih
      obtain ⟨h1, h2, h3, h4⟩ := end_frame_shape hstep
      exact ⟨h4 hchain, by rw [h1, h3]; exact hlen, by omega⟩
  | push _ hstep ih =>
      obtain ⟨hchain, hlen, hcount⟩ := ih
      obtain ⟨h1, h2, h3, h4⟩ := stpush_shape hstep
      exact ⟨h4, by rw [h1, h3]; exact hlen, by omega⟩
  | pop _ hstep ih =>
      obtain ⟨hchain, hlen, hcount⟩ := ih
      obtain ⟨h1, h2, h3, h4⟩ := stpop_shape hstep
      exact ⟨h4 hchain, by rw [h1, h3]; exact hlen, by omega⟩

theorem pushOnTop_isSome {a : Stalloc} (n : Nat) (hchain : a.chain ≠ [])
    (h1 : 1 ≤ a.frameCount) (h2 : a.frameCount ≤ a.frames.length) :
    (pushOnTop a n).isSome = true := by
  cases hc : a.chain with
  | nil => exact absurd hc hchain
  | cons top rest => simp [pushOnTop, hc, h1, h2]

/-- Claim C9: a stack push or explicit stack pop updates the frame record at
index frame_count - 1 unconditionally.  On a freshly created allocator
(frame_count 0, frames never allocated) the access is out of bounds, so push
and pop are rejected by the model; on any reachable allocator with at least
one open frame the index is within the frame array and a push succeeds. -/
theorem push_pop_frame_bounds :
    (∀ (a : Stalloc) (n : Nat), Reachable a → 1 ≤ a.frameCount →
      a.frameCount - 1 < a.frames.length ∧ (stpush a n).isSome = true) ∧
    (∀ bytes n : Nat, stpush (stalloc_create bytes) n = none ∧
      stpop (stalloc_create bytes) = none) := by
  constructor
  · intro a n hreach hfc
    obtain ⟨hchain, hlen, hcount⟩ := reachable_inv hreach
    refine ⟨by omega, ?_⟩
    cases hc : a.chain with
    | nil => exact absurd hc hchain
    | cons top rest =>
        simp only [stpush, hc]
        split
        · refine pushOnTop_isSome n ?_ ?_ ?_
          · exact (append_new_alloc_shape a n).2.2.2
          · rw [(append_new_alloc_shape a n).2.1]; exact hfc
          · rw [(append_new_alloc_shape a n).2.1, (append_new_alloc_shape a n).1]
            omega
        · exact pushOnTop_isSome n hchain hfc (by omega)
  · intro bytes n
    constructor
    · have hcreate : stalloc_create bytes =
          { chain := [alloc_make bytes], frames := [], frameCount := 0,
            frameArrLen := 0 } := rfl
      rw [hcreate]
      simp only [stpush, alloc_make]
      split <;> simp [pushOnTop, append_new_alloc]
    · rfl

theorem push_pop_frame_bounds_witness :
    ((start_frame (stalloc_create 8192)).frameCount - 1 <
        (start_frame (stalloc_create 8192)).frames.length ∧
      (stpush (start_frame (stalloc_create 8192)) 4).isSome = true) ∧
    (stpush (stalloc_create 8192) 4 = none ∧ stpop (stalloc_create 8192) = none) :=
  ⟨push_pop_frame_bounds.1 (start_frame (stalloc_create 8192)) 4
      (Reachable.frame_open (Reachable.create 8192)) (by decide),
    push_pop_frame_bounds.2 8192 4⟩

/- ----------------------------------------------------------------
   Probe order lemmas (hash table claims).
   ---------------------------------------------------------------- -/

theorem probeSeq_perm (start len : Nat) (h : start ≤ len) :
    (probeSeq start len).Perm (List.range len) := by
  have h2 := List.range'_append 0 start (len - start) 1
  simp only [Nat.one_mul, Nat.zero_add] at h2
  have hsum : len - start + start = len := by omega
  rw [hsum] at h2
  show (List.range' start (len - start) ++ List.range start).Perm (List.range len)
  refine List.perm_append_comm.trans ?_
  rw [List.range_eq_range' start, h2, ← List.range_eq_range']

theorem mem_probeSeq {start len i : Nat} (h : start ≤ len) :
    i ∈ probeSeq start len ↔ i < len := by
  rw [(probeSeq_perm start len h).mem_iff, List.mem_range]

theorem find?_eq_some_of_unique {p : Nat → Bool} {l : List Nat} {i : Nat}
    (hmem : i ∈ l) (hp : p i = true)
    (huniq : ∀ j ∈ l, p j = true → j = i) :
    l.find? p = some i := by
  induction l with
  | nil => cases hmem
  | cons a l ih =>
      by_cases ha : p a = true
      · have heq : a = i := huniq a (List.mem_cons_self a l) ha
        subst heq
        simp [List.find?_cons_of_pos _ ha]
      · have hne : a ≠ i := fun he => ha (he ▸ hp)
        have hmem2 : i ∈ l := by
          cases hmem with
          | head => exact absurd rfl hne
          | tail _ hmem3 => exact hmem3
        rw [List.find?_cons_of_neg _ ha]
        exact ih hmem2 fun j hj hpj => huniq j (List.mem_cons_of_mem a hj) hpj

theorem get?_some_lt {α : Type} {l : List α} {i : Nat} {a : α}
    (h : l.get? i = some a) : i < l.length := by
  by_contra hge
  rw [List.get?_eq_getElem?, List.getElem?_eq_none (by omega)] at h
  cases h

theorem key_pos_some {m : HMap} {K : List Nat} {i : Nat}
    (h : key_pos m K = some i) :
    ∃ s, m.slots.get? i = some s ∧ occb m.inUseId s = true ∧ s.key = K := by
  simp only [key_pos] at h
  have hp := List.find?_some h
  cases hget : m.slots.get? i with
  | none => rw [hget] at hp; cases hp
  | some s =>
      rw [hget] at hp
      simp only [Bool.and_eq_true, beq_iff_eq] at hp
      exact ⟨s, rfl, hp.1, hp.2⟩

theorem key_pos_none {m : HMap} {K : List Nat}
    (h : key_pos m K = none) {i : Nat} {s : Slot}
    (hget : m.slots.get? i = some s) (hocc : occb m.inUseId s = true)
    (hkey : s.key = K) : False := by
  have hlt : i < m.slots.length := get?_some_lt hget
  have hstart : hash_bytes K % m.slots.length ≤ m.slots.length :=
    le_of_lt (Nat.mod_lt _ (by omega))
  simp only [key_pos, List.find?_eq_none] at h
  have := h i ((mem_probeSeq hstart).mpr hlt)
  rw [hget] at this
  simp only [Bool.and_eq_true, beq_iff_eq] at this
  exact this ⟨hocc, hkey⟩

theorem key_pos_unique {m : HMap} {K : List Nat} {i : Nat} {s : Slot}
    (hget : m.slots.get? i = some s) (hocc : occb m.inUseId s = true)
    (hkey : s.key = K)
    (huniq : ∀ j t, m.slots.get? j = some t → occb m.inUseId t = true →
      t.key = K → j = i) :
    key_pos m K = some i := by
  have hlt : i < m.slots.length := get?_some_lt hget
  have hstart : hash_bytes K % m.slots.length ≤ m.slots.length :=
    le_of_lt (Nat.mod_lt _ (by omega))
  simp only [key_pos]
  refine find?_eq_some_of_unique ((mem_probeSeq hstart).mpr hlt) ?_ ?_
  · rw [hget]
    simp [hocc, hkey]
  · intro j hj hpj
    cases hget2 : m.slots.get? j with
    | none => rw [hget2] at hpj; cases hpj
    | some t =>
        rw [hget2] at hpj
        simp only [Bool.and_eq_true, beq_iff_eq] at hpj
        exact huniq j t hget2 hpj.1 hpj.2

theorem lsop_some {m : HMap} {from_idx idx : Nat}
    (h : linear_search_open_pos m from_idx = some idx) :
    ∃ s, m.slots.get? idx = some s ∧ occb m.inUseId s = false := by
  simp only [linear_search_open_pos] at h
  have hp := List.find?_some h
  cases hget : m.slots.get? idx with
  | none => rw [hget] at hp; cases hp
  | some s =>
      rw [hget] at hp
      simp only [Bool.not_eq_true'] at hp
      exact ⟨s, rfl, hp⟩

theorem lsop_isSome_of_free {m : HMap} {from_idx i : Nat} {s : Slot}
    (hfrom : from_idx ≤ m.slots.length)
    (hget : m.slots.get? i = some s) (hfree : occb m.inUseId s = false) :
    ∃ idx, linear_search_open_pos m from_idx = some idx := by
  cases hfind : linear_search_open_pos m from_idx with
  | some idx => exact ⟨idx, rfl⟩
  | none =>
      exfalso
      have hlt : i < m.slots.length := get?_some_lt hget
      simp only [linear_search_open_pos, List.find?_eq_none] at hfind
      have := hfind i ((mem_probeSeq hfrom).mpr hlt)
      rw [hget] at this
      simp only [Bool.not_eq_true', Bool.not_eq_false] at this
      rw [hfree] at this
      cases this

theorem exists_free_of_occCount_lt {m : HMap} (h : occCount m < m.slots.length) :
    ∃ i s, m.slots.get? i = some s ∧ occb m.inUseId s = false := by
  rw [occCount, List.countP_eq_length_filter] at h
  obtain ⟨x, hmem, hx⟩ := List.length_filter_lt_length_iff_exists.mp h
  obtain ⟨n, hn⟩ := List.mem_iff_getElem?.mp hmem
  exact ⟨n, x, by rw [List.get?_eq_getElem?]; exact hn, by simpa using hx⟩

theorem wf_unique {m : HMap} (hwf : MapWF m) {i j : Nat} {s t : Slot}
    (hij : i ≠ j) (hi : m.slots.get? i = some s) (hj : m.slots.get? j = some t)
    (hocci : occb m.inUseId s = true) (hoccj : occb m.inUseId t = true) :
    s.key ≠ t.key := by
  obtain ⟨-, -, -, -, hpair, -⟩ := hwf
  rw [List.pairwise_iff_getElem] at hpair
  rw [List.get?_eq_getElem?, List.getElem?_eq_some] at hi hj
  obtain ⟨hilt, hi⟩ := hi
  obtain ⟨hjlt, hj⟩ := hj
  rcases Nat.lt_or_ge i j with hlt | hge
  · have := hpair i j hilt hjlt hlt
    rw [hi, hj] at this
    exact this hocci hoccj
  · have hlt : j < i := by omega
    have := hpair j i hjlt hilt hlt
    rw [hi, hj] at this
    exact fun he => this hoccj hocci he.symm

theorem map_get_of_key_pos {m : HMap} {K : List Nat} {i : Nat}
    (h : key_pos m K = some i) :
    ∃ s, map_get m K = some s ∧ m.slots.get? i = some s ∧
      occb m.inUseId s = true ∧ s.key = K := by
  obtain ⟨s, hget, hocc, hkey⟩ := key_pos_some h
  refine ⟨s, ?_, hget, hocc, hkey⟩
  simp only [map_get, h, hget, if_pos hocc]

theorem map_has_false_no_key {m : HMap} {K : List Nat}
    (h : map_has m K = false) :
    ∀ i s, m.slots.get? i = some s → occb m.inUseId s = true → s.key ≠ K := by
  intro i s hget hocc hkey
  cases hkp : key_pos m K with
  | none => exact key_pos_none hkp hget hocc hkey
  | some j =>
      obtain ⟨t, hmget, -, -, -⟩ := map_get_of_key_pos hkp
      rw [map_has, hmget] at h
      cases h

theorem occb_zero_state {gen : Int} (hgen : 0 < gen) (s : Slot)
    (hs : s.state = 0) : occb gen s = false := by
  simp [occb, hs]
  omega

theorem map_del_preserves {m : HMap} (K : List Nat) :
    (map_del m K).size = m.size ∧ (map_del m K).inUseId = m.inUseId ∧
    (map_del m K).keySize = m.keySize ∧ (map_del m K).elSize = m.elSize ∧
    (map_del m K).flags = m.flags ∧ (map_del m K).cacheCounter = m.cacheCounter ∧
    (map_del m K).slots.length = m.slots.length := by
  simp only [map_del]
  cases hkp : key_pos m K with
  | none => simp
  | some i =>
      dsimp only
      cases hget : m.slots.get? i with
      | none => simp [hget]
      | some s =>
          by_cases hocc : occb m.inUseId s = true
          · simp [hget, hocc]
          · simp [hget, hocc]

theorem get?_set_self {α : Type} {l : List α} {i : Nat} {a : α}
    (h : i < l.length) : (l.set i a).get? i = some a := by
  rw [List.get?_eq_getElem?]
  exact List.getElem?_set_self h

theorem get?_set_ne {α : Type} {l : List α} {i j : Nat} {a : α} (h : i ≠ j) :
    (l.set i a).get? j = l.get? j := by
  rw [List.get?_eq_getElem?, List.get?_eq_getElem?]
  exact List.getElem?_set_ne h

theorem map_del_spec {m : HMap} {K : List Nat} (hwf : MapWF m) :
    MapWF (map_del m K) ∧ occCount (map_del m K) ≤ occCount m ∧
    (∀ j t, (map_del m K).slots.get? j = some t →
      occb m.inUseId t = true → t.key ≠ K) := by
  obtain ⟨hlen, hsize, hkeys, hcnt, hpair, hgen⟩ := hwf
  have hwf2 : MapWF m := ⟨hlen, hsize, hkeys, hcnt, hpair, hgen⟩
  simp only [map_del]
  cases hkp : key_pos m K with
  | none =>
      refine ⟨hwf2, le_rfl, ?_⟩
      intro j t hget hocc hkey
      exact key_pos_none hkp hget hocc hkey
  | some i =>
      dsimp only
      obtain ⟨s, hget, hocc, hkey⟩ := key_pos_some hkp
      rw [hget]
      dsimp only
      rw [if_pos hocc]
      have hlt : i < m.slots.length := get?_some_lt hget
      have hsmem : s ∈ m.slots := List.get?_mem hget
      have hgetel : m.slots[i] = s := by
        obtain ⟨h1, h2⟩ := List.getElem?_eq_some.mp (by
          rw [← List.get?_eq_getElem?]; exact hget)
        exact h2
      have hs0occ : occb m.inUseId { key := s.key, val := s.val, state := 0 } = false :=
        occb_zero_state hgen _ rfl
      have hcp : (m.slots.set i { key := s.key, val := s.val, state := 0 }).countP
          (occb m.inUseId) = m.slots.countP (occb m.inUseId) - 1 := by
        rw [List.countP_set _ _ _ _ hlt, hgetel, if_pos hocc, if_neg (by
          rw [hs0occ]; exact Bool.false_ne_true)]
        omega
      have hpos : 0 < m.slots.countP (occb m.inUseId) :=
        List.countP_pos_iff.mpr ⟨s, hsmem, hocc⟩
      refine ⟨⟨?_, hsize, ?_, ?_, ?_, hgen⟩, ?_, ?_⟩
      · simp [List.length_set, hlen]
      · intro t ht
        rcases List.mem_or_eq_of_mem_set ht with h | h
        · exact hkeys t h
        · rw [h]
          exact hkeys s hsmem
      · show m.slotsInUse - 1 = _
        rw [occCount] at hcnt ⊢
        dsimp only
        rw [hcp]
        omega
      · rw [List.pairwise_iff_getElem]
        intro p q hp hq hpq
        rw [List.length_set] at hp hq
        rw [List.getElem_set, List.getElem_set]
        by_cases hip : i = p
        · simp [if_pos hip, hs0occ]
        · by_cases hiq : i = q
          · simp [if_neg hip, if_pos hiq, hs0occ]
          · simp only [if_neg hip, if_neg hiq]
            exact (List.pairwise_iff_getElem.mp hpair) p q hp hq hpq
      · rw [occCount, occCount]
        dsimp only
        rw [hcp]
        omega
      · intro j t hgetj hocc2 hkeyt
        by_cases hji : j = i
        · subst hji
          rw [get?_set_self hlt] at hgetj
          cases hgetj
          rw [hs0occ] at hocc2
          cases hocc2
        · rw [get?_set_ne (fun he => hji he.symm)] at hgetj
          exact wf_unique hwf2 hji hgetj hget hocc2 hocc (hkeyt.trans hkey.symm)

theorem del_if_has_spec {m : HMap} (K : List Nat) (hwf : MapWF m) :
    MapWF (if map_has m K then map_del m K else m) ∧
    occCount (if map_has m K then map_del m K else m) ≤ occCount m ∧
    (∀ j t, (if map_has m K then map_del m K else m).slots.get? j = some t →
      occb m.inUseId t = true → t.key ≠ K) ∧
    (if map_has m K then map_del m K else m).size = m.size ∧
    (if map_has m K then map_del m K else m).inUseId = m.inUseId ∧
    (if map_has m K then map_del m K else m).keySize = m.keySize ∧
    (if map_has m K then map_del m K else m).elSize = m.elSize ∧
    (if map_has m K then map_del m K else m).flags = m.flags ∧
    (if map_has m K then map_del m K else m).cacheCounter = m.cacheCounter := by
  by_cases hhas : map_has m K = true
  · rw [if_pos hhas]
    obtain ⟨h1, h2, h3⟩ := map_del_spec (K := K) hwf
    obtain ⟨p1, p2, p3, p4, p5, p6, -⟩ := map_del_preserves (m := m) K
    exact ⟨h1, h2, h3, p1, p2, p3, p4, p5, p6⟩
  · rw [if_neg hhas]
    refine ⟨hwf, le_rfl, ?_, rfl, rfl, rfl, rfl, rfl, rfl⟩
    exact map_has_false_no_key (Bool.not_eq_true _ ▸ hhas)

theorem occb_self {gen : Int} (K V : List Nat) :
    occb gen { key := K, val := V, state := gen } = true := by
  simp [occb]


theorem putWith_spec {mlf : HMap → Option HMap} {m m1 : HMap} {K V : List Nat}
    (hmlf : mlf m = some m1) (hwf1 : MapWF m1) (hroom : occCount m1 < m1.size)
    (hK : K.length = m1.keySize) :
    ∃ m3, putWith mlf m K V = some m3 ∧ MapWF m3 ∧
      map_get m3 K = some { key := K, val := V, state := m1.inUseId } ∧
      occCount m3 ≤ occCount m1 + 1 ∧
      m3.size = m1.size ∧ m3.inUseId = m1.inUseId ∧ m3.keySize = m1.keySize ∧
      m3.elSize = m1.elSize ∧ m3.flags = m1.flags ∧
      m3.cacheCounter = m1.cacheCounter := by
  obtain ⟨hwf2, hcount2, hnokey, hsize2, hgen2, hksz2, hesz2, hflags2, hcc2⟩ :=
    del_if_has_spec K hwf1
  set m2 := if map_has m1 K then map_del m1 K else m1 with hm2
  obtain ⟨hlen2, hpos2, hkeys2, hcnt2, hpair2, hgenpos2⟩ := hwf2
  have hwf2b : MapWF m2 := ⟨hlen2, hpos2, hkeys2, hcnt2, hpair2, hgenpos2⟩
  have hroom2 : occCount m2 < m2.slots.length := by
    rw [hlen2, hsize2]
    exact lt_of_le_of_lt hcount2 hroom
  have hlenpos : 0 < m2.slots.length := by
    rw [hlen2, hsize2]
    omega
  obtain ⟨ifree, sfree, hgetfree, hfree⟩ := exists_free_of_occCount_lt hroom2
  have hfrom : hash_bytes K % m2.slots.length ≤ m2.slots.length :=
    le_of_lt (Nat.mod_lt _ hlenpos)
  obtain ⟨idx, hlsop⟩ := lsop_isSome_of_free hfrom hgetfree hfree
  obtain ⟨sidx, hgetidx, hoccidx⟩ := lsop_some hlsop
  have hidxlt : idx < m2.slots.length := get?_some_lt hgetidx
  have hgetelidx : m2.slots[idx] = sidx := by
    obtain ⟨hw1, hw2⟩ := List.getElem?_eq_some.mp (by
      rw [← List.get?_eq_getElem?]; exact hgetidx)
    exact hw2
  have hcountset : (m2.slots.set idx
        { key := K, val := V, state := m2.inUseId }).countP (occb m2.inUseId) =
      m2.slots.countP (occb m2.inUseId) + 1 := by
    rw [List.countP_set _ _ _ _ hidxlt, hgetelidx]
    rw [if_neg (by rw [hoccidx]; exact Bool.false_ne_true),
      if_pos (occb_self K V)]
    have := List.countP_le_length (occb m2.inUseId) (l := m2.slots)
    omega
  refine ⟨{ m2 with
      slots := m2.slots.set idx { key := K, val := V, state := m2.inUseId },
      slotsInUse := m2.slotsInUse + 1 },
    ?_, ?_, ?_, ?_, ?_, ?_, ?_, ?_, ?_, ?_⟩
  · simp only [putWith, hmlf]
    rw [← hm2, hlsop]
  · refine ⟨by simp [List.length_set, hlen2], hpos2, ?_, ?_, ?_, hgenpos2⟩
    · intro t ht
      rcases List.mem_or_eq_of_mem_set ht with h | h
      · exact hkeys2 t h
      · rw [h]
        show K.length = _
        rw [hK, ← hksz2]
    · show m2.slotsInUse + 1 = _
      rw [occCount]
      dsimp only
      rw [hcountset]
      rw [occCount] at hcnt2
      push_cast
      omega
    · rw [List.pairwise_iff_getElem]
      intro p q hp hq hpq
      rw [List.length_set] at hp hq
      rw [List.getElem_set, List.getElem_set]
      have hgq : ∀ r (hr : r < m2.slots.length),
          m2.slots.get? r = some (m2.slots[r]) := by
        intro r hr
        rw [List.get?_eq_getElem?]
        exact List.getElem?_eq_getElem hr
      by_cases hip : idx = p
      · rw [if_pos hip]
        by_cases hiq : idx = q
        · omega
        · rw [if_neg hiq]
          intro hdum hoq hkeyeq
          exact hnokey q _ (hgq q hq) (by rw [← hgen2]; exact hoq) hkeyeq.symm
      · rw [if_neg hip]
        by_cases hiq : idx = q
        · rw [if_pos hiq]
          intro hop hdum hkeyeq
          exact hnokey p _ (hgq p hp) (by rw [← hgen2]; exact hop) hkeyeq
        · rw [if_neg hiq]
          exact (List.pairwise_iff_getElem.mp hpair2) p q hp hq hpq
  · have hkpu : key_pos
        { m2 with
          slots := m2.slots.set idx { key := K, val := V, state := m2.inUseId },
          slotsInUse := m2.slotsInUse + 1 } K = some idx := by
      apply key_pos_unique (s := { key := K, val := V, state := m2.inUseId })
      · exact get?_set_self hidxlt
      · exact occb_self K V
      · rfl
      · intro j t hgetj hoccj hkeyj
        by_contra hne
        have hgetj2 : (m2.slots.set idx
            { key := K, val := V, state := m2.inUseId }).get? j = some t := hgetj
        rw [get?_set_ne (fun he => hne he.symm)] at hgetj2
        exact hnokey j t hgetj2 (by rw [← hgen2]; exact hoccj) hkeyj
    have hgs : ({ m2 with
        slots := m2.slots.set idx { key := K, val := V, state := m2.inUseId },
        slotsInUse := m2.slotsInUse + 1 } : HMap).slots.get? idx =
        some { key := K, val := V, state := m2.inUseId } := get?_set_self hidxlt
    simp only [map_get, hkpu, hgs]
    rw [show ({ m2 with
        slots := m2.slots.set idx { key := K, val := V, state := m2.inUseId },
        slotsInUse := m2.slotsInUse + 1 } : HMap).inUseId = m2.inUseId from rfl,
      if_pos (occb_self K V), hgen2]
  · rw [occCount]
    dsimp only
    rw [hcountset]
    rw [occCount] at hcount2
    omega
  · rw [show ({ m2 with
        slots := m2.slots.set idx { key := K, val := V, state := m2.inUseId },
        slotsInUse := m2.slotsInUse + 1 } : HMap).size = m2.size from rfl, hsize2]
  · exact hgen2
  · exact hksz2
  · exact hesz2
  · exact hflags2
  · exact hcc2

theorem mlf_no_trigger {fuel : Nat} {m : HMap}
    (h : 4 * m.slotsInUse < 3 * (m.size : Int)) :
    maintain_load_factor fuel m = some m := by
  unfold maintain_load_factor
  rw [if_pos h]

theorem occb_zeroSlot {gen : Int} (hgen : 0 < gen) (k e : Nat) :
    occb gen (zeroSlot k e) = false := by
  simp [occb, zeroSlot]
  omega

theorem fresh_wf {el key sz : Nat} {flags : Int} (hsz : 0 < sz) :
    MapWF (map_clear (map_init el key flags sz)) ∧
    occCount (map_clear (map_init el key flags sz)) = 0 ∧
    (map_clear (map_init el key flags sz)).inUseId = 2 ∧
    (map_clear (map_init el key flags sz)).size = sz ∧
    (map_clear (map_init el key flags sz)).keySize = key ∧
    (map_clear (map_init el key flags sz)).elSize = el ∧
    (map_clear (map_init el key flags sz)).flags = flags ∧
    (map_clear (map_init el key flags sz)).cacheCounter = 0 := by
  have hocc0 : occCount (map_clear (map_init el key flags sz)) = 0 := by
    rw [occCount]
    rw [List.countP_eq_zero]
    intro a ha
    rw [(List.mem_replicate.mp ha).2]
    rw [show (map_clear (map_init el key flags sz)).inUseId = 2 from rfl,
      occb_zeroSlot (by norm_num)]
    exact Bool.false_ne_true
  refine ⟨⟨?_, hsz, ?_, ?_, ?_, show (0 : Int) < 1 + 1 by norm_num⟩,
    hocc0, rfl, rfl, rfl, rfl, rfl, rfl⟩
  · exact List.length_replicate sz (zeroSlot key el)
  · intro s hs
    rw [(List.mem_replicate.mp hs).2]
    exact List.length_replicate key 0
  · rw [hocc0]
    rfl
  · rw [show (map_clear (map_init el key flags sz)).slots =
      List.replicate sz (zeroSlot key el) from rfl]
    rw [List.pairwise_replicate]
    refine Or.inr fun h1 h2 => ?_
    have h1b : occb (1 + 1 : Int) (zeroSlot key el) = true := h1
    rw [occb_zeroSlot (show (0 : Int) < 1 + 1 by norm_num)] at h1b
    cases h1b

theorem putAll_spec (f : Nat) (c : Slot → Bool) :
    ∀ (slots : List Slot) (acc : HMap),
      MapWF acc →
      (∀ s ∈ slots, c s = true → s.key.length = acc.keySize) →
      4 * (occCount acc + slots.countP c) < 3 * acc.size →
      ∃ acc2, putAll (putWith (maintain_load_factor f)) c slots acc = some acc2 ∧
        MapWF acc2 ∧ occCount acc2 ≤ occCount acc + slots.countP c ∧
        acc2.size = acc.size ∧ acc2.inUseId = acc.inUseId ∧
        acc2.keySize = acc.keySize ∧ acc2.elSize = acc.elSize ∧
        acc2.flags = acc.flags ∧ acc2.cacheCounter = acc.cacheCounter := by
  intro slots
  induction slots with
  | nil =>
      intro acc hwf hkeys hroom
      exact ⟨acc, rfl, hwf, by simp, rfl, rfl, rfl, rfl, rfl, rfl⟩
  | cons s rest ih =>
      intro acc hwf hkeys hroom
      have hsizepos : 0 < acc.size := hwf.2.1
      by_cases hc : c s = true
      · have hcnt : (s :: rest).countP c = rest.countP c + 1 := by
          simp [List.countP_cons, hc]
        rw [hcnt] at hroom
        have htrigger : 4 * acc.slotsInUse < 3 * (acc.size : Int) := by
          have hcnt0 : acc.slotsInUse = (occCount acc : Int) := hwf.2.2.2.1
          rw [hcnt0]
          push_cast
          push_cast at hroom
          omega
        have hroom1 : occCount acc < acc.size := by omega
        obtain ⟨acc3, heq, hwf3, hget3, hocc3, hsz3, hgen3, hksz3, hesz3,
          hflags3, hcc3⟩ :=
          putWith_spec (@mlf_no_trigger f acc htrigger) hwf hroom1
            (hkeys s (List.mem_cons_self s rest) hc)
        have hkeys' : ∀ t ∈ rest, c t = true → t.key.length = acc3.keySize :=
          fun t ht hct => by
            rw [hksz3]
            exact hkeys t (List.mem_cons_of_mem s ht) hct
        have hroom' : 4 * (occCount acc3 + rest.countP c) < 3 * acc3.size := by
          rw [hsz3]
          omega
        obtain ⟨acc2, heq2, hwf2, hocc2, hsz2, hgen2, hksz2, hesz2, hflags2,
          hcc2⟩ := ih acc3 hwf3 hkeys' hroom'
        refine ⟨acc2, ?_, hwf2, by omega, by rw [hsz2, hsz3],
          by rw [hgen2, hgen3], by rw [hksz2, hksz3], by rw [hesz2, hesz3],
          by rw [hflags2, hflags3], by rw [hcc2, hcc3]⟩
        show (if c s = true then
            match putWith (maintain_load_factor f) acc s.key s.val with
            | none => none
            | some acc1 => putAll (putWith (maintain_load_factor f)) c rest acc1
          else putAll (putWith (maintain_load_factor f)) c rest acc) = some acc2
        rw [if_pos hc, heq]
        exact heq2
      · have hcb : c s = false := by
          cases hcs : c s
          · rfl
          · exact absurd hcs hc
        have hcnt : (s :: rest).countP c = rest.countP c := by
          simp [List.countP_cons, hcb]
        rw [hcnt] at hroom
        have hkeys' : ∀ t ∈ rest, c t = true → t.key.length = acc.keySize :=
          fun t ht hct => hkeys t (List.mem_cons_of_mem s ht) hct
        obtain ⟨acc2, heq2, hwf2, hocc2, hsz2, hgen2, hksz2, hesz2, hflags2,
          hcc2⟩ := ih acc hwf hkeys' hroom
        refine ⟨acc2, ?_, hwf2, by omega, hsz2, hgen2, hksz2, hesz2, hflags2,
          hcc2⟩
        show (if c s = true then
            match putWith (maintain_load_factor f) acc s.key s.val with
            | none => none
            | some acc1 => putAll (putWith (maintain_load_factor f)) c rest acc1
          else putAll (putWith (maintain_load_factor f)) c rest acc) = some acc2
        rw [if_neg (by rw [hcb]; exact Bool.false_ne_true)]
        exact heq2

theorem mlf_spec {m : HMap} (hwf : MapWF m) :
    ∃ m1, maintain_load_factor 1 m = some m1 ∧ MapWF m1 ∧
      occCount m1 < m1.size ∧
      m1.keySize = m.keySize ∧ m1.elSize = m.elSize ∧ m1.flags = m.flags ∧
      (¬ 4 * m.slotsInUse < 3 * (m.size : Int) →
        m1.inUseId = 2 ∧ m1.cacheCounter = m.cacheCounter + 1 ∧
        m1.size = m.size * 2) := by
  obtain ⟨hlen, hsize, hkeys, hcnt, hpair, hgen⟩ := hwf
  have hwfb : MapWF m := ⟨hlen, hsize, hkeys, hcnt, hpair, hgen⟩
  by_cases htrig : 4 * m.slotsInUse < 3 * (m.size : Int)
  · refine ⟨m, mlf_no_trigger htrig, hwfb, ?_, rfl, rfl, rfl,
      fun hcon => absurd htrig hcon⟩
    rw [hcnt] at htrig
    push_cast at htrig
    omega
  · have hszpos : 0 < m.size * 2 := by omega
    obtain ⟨hfwf, hfocc, hfgen, hfsz, hfksz, hfesz, hfflags, hfcc⟩ :=
      @fresh_wf m.elSize m.keySize (m.size * 2) m.flags hszpos
    have hkeys2 : ∀ s ∈ m.slots, occb m.inUseId s = true →
        s.key.length = (map_clear (map_init m.elSize m.keySize m.flags
          (m.size * 2))).keySize := fun s hs _ => by
      rw [hfksz]
      exact hkeys s hs
    have hcountb : m.slots.countP (occb m.inUseId) ≤ m.size := by
      rw [← hlen]
      exact List.countP_le_length _
    have hroomf : 4 * (occCount (map_clear (map_init m.elSize m.keySize m.flags
          (m.size * 2))) + m.slots.countP (occb m.inUseId)) <
        3 * (map_clear (map_init m.elSize m.keySize m.flags (m.size * 2))).size := by
      rw [hfocc, hfsz]
      omega
    obtain ⟨acc2, hputall, hwf2, hocc2, hsz2, hgen2, hksz2, hesz2, hflags2,
      hcc2⟩ := putAll_spec 0 (occb m.inUseId) m.slots _ hfwf hkeys2 hroomf
    obtain ⟨wlen, wsize, wkeys, wcnt, wpair, wgen⟩ := hwf2
    refine ⟨{ acc2 with cacheCounter := m.cacheCounter + 1 }, ?_,
      ⟨wlen, wsize, wkeys, wcnt, wpair, wgen⟩, ?_, ?_, ?_, ?_,
      fun hcon => ⟨?_, rfl, ?_⟩⟩
    · unfold maintain_load_factor
      rw [if_neg htrig]
      show (match putAll (putWith (maintain_load_factor 0)) (occb m.inUseId)
          m.slots (map_clear (map_init m.elSize m.keySize m.flags
            (m.size * 2))) with
        | none => none
        | some nm => some { nm with cacheCounter := m.cacheCounter + 1 }) = _
      rw [hputall]
    · show occCount acc2 < acc2.size
      rw [hfocc] at hocc2
      rw [hsz2, hfsz]
      omega
    · show acc2.keySize = m.keySize
      rw [hksz2, hfksz]
    · show acc2.elSize = m.elSize
      rw [hesz2, hfesz]
    · show acc2.flags = m.flags
      rw [hflags2, hfflags]
    · show acc2.inUseId = 2
      rw [hgen2, hfgen]
    · show acc2.size = m.size * 2
      rw [hsz2, hfsz]

/-- Claim C3: on any well-formed initialised table, putting value V at a key
K of the table key size and then getting K yields a hit whose value bytes
are V.  The fuel argument 1 covers the single level of rehash nesting the
call can perform (a rehash reinsertion never triggers a second rehash). -/
theorem map_get_after_put {m : HMap} (K V : List Nat) (hwf : MapWF m)
    (hK : K.length = m.keySize) (hV : V.length = m.elSize) :
    ∃ m3, map_put 1 m K V = some m3 ∧
      ∃ s, map_get m3 K = some s ∧ s.val = V := by
  obtain ⟨m1, hmlf, hwf1, hroom1, hksz1, -, -, -⟩ := mlf_spec hwf
  obtain ⟨m3, heq, -, hget, -, -, -, -, -, -, -⟩ :=
    putWith_spec (V := V) hmlf hwf1 hroom1 (by rw [hksz1]; exact hK)
  exact ⟨m3, heq, _, hget, rfl⟩

theorem map_get_after_put_witness :
    ∃ m3, map_put 1 (map_init 1 1 0 2) [5] [7] = some m3 ∧
      ∃ s, map_get m3 [5] = some s ∧ s.val = [7] :=
  map_get_after_put [5] [7]
    ⟨rfl, by decide, by decide, rfl, by decide, by decide⟩ rfl rfl

/-- Claim C4 (amended): a load-factor-triggered rehash leaves the
generation counter equal to 2 (the freshly initialised doubled table is
cleared once, taking its generation from 1 to 2) regardless of the
pre-rehash generation; only the separate cache counter is carried across,
incremented by one.  The table doubles and stays well formed. -/
theorem rehash_generation {m : HMap} (hwf : MapWF m)
    (htrig : ¬ 4 * m.slotsInUse < 3 * (m.size : Int)) :
    ∃ m1, maintain_load_factor 1 m = some m1 ∧ MapWF m1 ∧ m1.inUseId = 2 ∧
      m1.cacheCounter = m.cacheCounter + 1 ∧ m1.size = m.size * 2 := by
  obtain ⟨m1, heq, hwf1, -, -, -, -, hcond⟩ := mlf_spec hwf
  obtain ⟨hgen, hcc, hsz⟩ := hcond htrig
  exact ⟨m1, heq, hwf1, hgen, hcc, hsz⟩

theorem rehash_generation_witness :
    ∃ m1, maintain_load_factor 1
        { size := 4, elSize := 1, keySize := 1, slotsInUse := 3, flags := 0,
          inUseId := 1, cacheCounter := 0,
          slots := [{ key := [0], val := [10], state := 1 },
            { key := [1], val := [11], state := 1 },
            { key := [2], val := [12], state := 1 }, zeroSlot 1 1] } = some m1 ∧
      MapWF m1 ∧ m1.inUseId = 2 ∧ m1.cacheCounter = 0 + 1 ∧ m1.size = 4 * 2 :=
  rehash_generation
    ⟨rfl, by decide, by decide, by decide, by decide, by decide⟩
    (by decide)

/-- Claim C4 as stated fails: a rehash triggered on a generation-1 table
leaves the generation at 2, not at its pre-rehash value 1. -/
theorem rehash_generation_cex :
    ¬ 4 * ({ size := 4, elSize := 1, keySize := 1, slotsInUse := 3, flags := 0, inUseId := 1, cacheCounter := 0, slots := [{ key := [0], val := [10], state := 1 }, { key := [1], val := [11], state := 1 }, { key := [2], val := [12], state := 1 }, zeroSlot 1 1] } : HMap).slotsInUse < 3 * (({ size := 4, elSize := 1, keySize := 1, slotsInUse := 3, flags := 0, inUseId := 1, cacheCounter := 0, slots := [{ key := [0], val := [10], state := 1 }, { key := [1], val := [11], state := 1 }, { key := [2], val := [12], state := 1 }, zeroSlot 1 1] } : HMap).size : Int) ∧
    (maintain_load_factor 1 ({ size := 4, elSize := 1, keySize := 1, slotsInUse := 3, flags := 0, inUseId := 1, cacheCounter := 0, slots := [{ key := [0], val := [10], state := 1 }, { key := [1], val := [11], state := 1 }, { key := [2], val := [12], state := 1 }, zeroSlot 1 1] } : HMap)).map HMap.inUseId ≠ some 1 := by
  decide

/-- Claim C5 (amended): map_clear bumps the generation, resets the load to
zero, and zero-fills every slot of the backing storage, including the key
and value payload bytes (vec_clear performs a full memset); afterwards every
slot is free both because its state tag is zero and because the generation
moved on. -/
theorem map_clear_spec (m : HMap) (hgen : 0 ≤ m.inUseId) :
    (map_clear m).inUseId = m.inUseId + 1 ∧ (map_clear m).slotsInUse = 0 ∧
    (map_clear m).slots = List.replicate m.size (zeroSlot m.keySize m.elSize) ∧
    ∀ s ∈ (map_clear m).slots, occb (map_clear m).inUseId s = false := by
  refine ⟨rfl, rfl, rfl, ?_⟩
  intro s hs
  have hs2 : s ∈ List.replicate m.size (zeroSlot m.keySize m.elSize) := hs
  rw [(List.mem_replicate.mp hs2).2]
  show occb (m.inUseId + 1) _ = false
  exact occb_zeroSlot (by omega) _ _

theorem map_clear_spec_witness :
    (map_clear (map_init 1 1 0 2)).inUseId = (map_init 1 1 0 2).inUseId + 1 ∧
    (map_clear (map_init 1 1 0 2)).slotsInUse = 0 ∧
    (map_clear (map_init 1 1 0 2)).slots =
      List.replicate (map_init 1 1 0 2).size (zeroSlot 1 1) ∧
    ∀ s ∈ (map_clear (map_init 1 1 0 2)).slots,
      occb (map_clear (map_init 1 1 0 2)).inUseId s = false :=
  map_clear_spec (map_init 1 1 0 2) (by decide)

/-- Claim C5 as stated fails: clearing a one-slot table whose slot holds key
byte 7 and value byte 9 overwrites both payload bytes with zero, so the
payload is not left unchanged. -/
theorem map_clear_cex :
    ¬ (((map_clear { size := 1, elSize := 1, keySize := 1, slotsInUse := 1, flags := 0, inUseId := 1, cacheCounter := 0, slots := [{ key := [7], val := [9], state := 1 }] }).slots.map Slot.key = [[7]]) ∧
       ((map_clear { size := 1, elSize := 1, keySize := 1, slotsInUse := 1, flags := 0, inUseId := 1, cacheCounter := 0, slots := [{ key := [7], val := [9], state := 1 }] }).slots.map Slot.val = [[9]])) := by
  decide

/- ----------------------------------------------------------------
   Placement flag of filter (claim C10).
   ---------------------------------------------------------------- -/

theorem putWith_flags {mlf : HMap → Option HMap}
    (hmlf : ∀ m m1, mlf m = some m1 → m1.flags = m.flags) :
    ∀ m k v m3, putWith mlf m k v = some m3 → m3.flags = m.flags := by
  intro m k v m3 h
  simp only [putWith] at h
  cases hm : mlf m with
  | none => simp only [hm] at h; cases h
  | some m1 =>
      simp only [hm] at h
      split at h
      · cases h
      · next idx heq =>
          cases h
          have hdel : (if map_has m1 k then map_del m1 k else m1).flags =
              m1.flags := by
            by_cases hhas : map_has m1 k = true
            · rw [if_pos hhas]
              exact (map_del_preserves k).2.2.2.2.1
            · rw [if_neg hhas]
          exact hdel.trans (hmlf m m1 hm)

theorem putAll_flags {put : HMap → List Nat → List Nat → Option HMap}
    (hput : ∀ acc k v acc2, put acc k v = some acc2 → acc2.flags = acc.flags)
    (c : Slot → Bool) :
    ∀ slots acc acc2, putAll put c slots acc = some acc2 →
      acc2.flags = acc.flags := by
  intro slots
  induction slots with
  | nil =>
      intro acc acc2 h
      cases h
      rfl
  | cons s rest ih =>
      intro acc acc2 h
      show _ = acc.flags
      have hstep : (if c s = true then
          match put acc s.key s.val with
          | none => none
          | some acc1 => putAll put c rest acc1
        else putAll put c rest acc) = some acc2 := h
      split at hstep
      · cases hput2 : put acc s.key s.val with
        | none => rw [hput2] at hstep; cases hstep
        | some acc1 =>
            rw [hput2] at hstep
            exact (ih acc1 acc2 hstep).trans (hput acc s.key s.val acc1 hput2)
      · exact ih acc acc2 hstep

theorem mlf_flags : ∀ (fuel : Nat) (m m1 : HMap),
    maintain_load_factor fuel m = some m1 → m1.flags = m.flags := by
  intro fuel
  induction fuel with
  | zero =>
      intro m m1 h
      unfold maintain_load_factor at h
      split at h
      · cases h
        rfl
      · cases h
  | succ f ih =>
      intro m m1 h
      unfold maintain_load_factor at h
      split at h
      · cases h
        rfl
      · have hstep : (match putAll (putWith (maintain_load_factor f))
            (occb m.inUseId) m.slots
            (map_clear (map_init m.elSize m.keySize m.flags (m.size * 2))) with
          | none => none
          | some nm => some { nm with cacheCounter := m.cacheCounter + 1 }) =
            some m1 := h
        cases hputall : putAll (putWith (maintain_load_factor f))
            (occb m.inUseId) m.slots
            (map_clear (map_init m.elSize m.keySize m.flags (m.size * 2))) with
        | none => rw [hputall] at hstep; cases hstep
        | some nm =>
            rw [hputall] at hstep
            cases hstep
            show nm.flags = m.flags
            exact putAll_flags (putWith_flags ih) (occb m.inUseId) m.slots
              (map_clear (map_init m.elSize m.keySize m.flags (m.size * 2)))
              nm hputall

/-- Claim C10: a filter rebuild always recreates the container with stack
placement, so the placement flag afterwards is TO_STACK even when the
original container was heap placed, and the container free operation no
longer releases the new backing storage. -/
theorem filter_forces_stack :
    (∀ (v : Vec) (p : List Nat → Bool),
      (vec_filter v p).flags = TO_STACK ∧
      vec_free_releases (vec_filter v p) = false) ∧
    (∀ (fuel : Nat) (m : HMap) (p : List Nat → List Nat → Bool) (m2 : HMap),
      map_filter fuel m p = some m2 →
      m2.flags = TO_STACK ∧ map_free_releases m2 = false) := by
  constructor
  · intro v p
    exact ⟨rfl, rfl⟩
  · intro fuel m p m2 h
    have hflags : m2.flags = TO_STACK := by
      have hput : ∀ acc k v acc2, map_put fuel acc k v = some acc2 →
          acc2.flags = acc.flags := fun acc k v acc2 hp =>
        putWith_flags (mlf_flags fuel) acc k v acc2 hp
      exact (putAll_flags hput _ _ _ _ h).trans rfl
    constructor
    · exact hflags
    · show (m2.flags == TO_HEAP) = false
      rw [hflags]
      rfl

theorem filter_forces_stack_witness :
    ((vec_filter { elSize := 1, flags := TO_HEAP, data := [[5]] }
        (fun _ => true)).flags = TO_STACK ∧
      vec_free_releases (vec_filter
        { elSize := 1, flags := TO_HEAP, data := [[5]] } (fun _ => true)) =
        false) ∧
    ((map_init 1 1 TO_STACK 1).flags = TO_STACK ∧
      map_free_releases (map_init 1 1 TO_STACK 1) = false) :=
  ⟨filter_forces_stack.1 { elSize := 1, flags := TO_HEAP, data := [[5]] }
      (fun _ => true),
    filter_forces_stack.2 1 (map_init 1 1 TO_HEAP 1) (fun _ _ => false)
      (map_init 1 1 TO_STACK 1) rfl⟩
